import Mathlib

/-!
Verification of a small regular-expression engine (groups, alternatives,
sequences, repeats, literal chars and character classes).

The engine is embedded shallowly:
* the character cursor (`std::str::Chars`) becomes a `List Char` holding the
  remaining input; cloning/restoring a cursor is plain value passing;
* `MatchResult` (`BTreeMap<usize, String>`) becomes a sorted association list
  from group number to matched character list;
* the polymorphic `Node` trait objects become one inductive `Node`;
* every `match_chars` implementation becomes a clause of a fuel-indexed
  function (`none` = the computation did not finish within the given fuel,
  mirroring the fact that the Rust matcher can loop forever);
* `GrpNode::parse` / `CharClassNode::parse` become fueled recursive functions
  returning `Except PErr`, one error constructor per `panic!` message.
-/

/-- Remaining input / matched text: Rust `String` and `Chars` both reduce to a
sequence of characters. -/
abbrev Str := List Char

/-- Embeds `MatchResult = BTreeMap<usize, String>`: an association list kept
sorted by key so that equal maps are equal lists. -/
abbrev MR := List (Nat × Str)

/-- Embeds `BTreeMap::insert`: replaces the value at an existing key,
keeps the list sorted. -/
def mrInsert : MR → Nat → Str → MR
  | [], k, v => [(k, v)]
  | (k', v') :: rest, k, v =>
    if k < k' then (k, v) :: (k', v') :: rest
    else if k = k' then (k, v) :: rest
    else (k', v') :: mrInsert rest k v

/-- Embeds `BTreeSet<char>::insert`: sorted, duplicate-free insertion. -/
def setInsert : Str → Char → Str
  | [], c => [c]
  | d :: rest, c =>
    if c < d then c :: d :: rest
    else if c = d then d :: rest
    else d :: setInsert rest c

/-- The pattern-tree node variants: `CharNode`, `CharClassNode`, `GrpNode`
(whose `AltNode` body is the list of alternative sequences), `RptNode` and
`SeqNode`.  A branch of an alternation is a `List Node` (the nodes of the
`SeqNode` for that branch). -/
inductive Node where
  | char (c : Char)
  | cclass (elems : Str) (negated : Bool)
  | grp (num : Nat) (alts : List (List Node))
  | rpt (node : Node)
  | seq (nodes : List Node)

/-- Embeds `parse_escape_char`. -/
def parseEscapeChar (c : Char) : Option Char :=
  if c = '\\' ∨ c = '(' ∨ c = ')' ∨ c = '[' ∨ c = ']' ∨ c = '*' ∨ c = '+' ∨ c = '^'
  then some c
  else if c = 't' then some '\t'
  else none

/-- Embeds `CharClassNode::from_vec` (collecting a `Vec<char>` into a
`BTreeSet`). -/
def fromVec (l : List Char) : Str := l.foldl setInsert []

/-- Embeds `parse_escape` (escape handling outside character classes). -/
def parseEscape (c : Char) : Option Node :=
  if c = 's' then some (.cclass (fromVec [' ', '\t']) false)
  else if c = 'S' then some (.cclass (fromVec [' ', '\t']) true)
  else
    match parseEscapeChar c with
    | some c' => some (.char c')
    | none => none

mutual

/-- Embeds the `match_chars` implementations of `CharNode`, `CharClassNode`,
`GrpNode`, `RptNode` and `SeqNode`.  The result is `none` when the given fuel
is not enough to finish (the Rust code has no fuel: it simply keeps running),
and otherwise `some (res, itr, mr)` where `res` is the `Option<String>`
returned by `match_chars` and `itr`, `mr` are the final states of the two
`&mut` arguments (the cursor and the `MatchResult`). -/
def matchChars : Nat → Node → Str → MR → Option (Option Str × Str × MR)
  | 0, _, _, _ => none
  | _ + 1, .char c, itr, mr =>
    -- CharNode: `itr.next()` consumes one character even on a failed compare.
    match itr with
    | [] => some (none, [], mr)
    | c' :: rest => if c' = c then some (some [c'], rest, mr) else some (none, rest, mr)
  | _ + 1, .cclass elems negated, itr, mr =>
    match itr with
    | [] => some (none, [], mr)
    | c :: rest =>
      if (negated && !(elems.contains c)) || (!negated && elems.contains c)
      then some (some [c], rest, mr)
      else some (none, rest, mr)
  | fuel + 1, .grp num alts, itr, mr =>
    -- GrpNode: delegate to the AltNode, record the match under `num` on success.
    match matchAlt fuel alts itr mr with
    | none => none
    | some (some s, itr', mr') => some (some s, itr', mrInsert mr' num s)
    | some (none, itr', mr') => some (none, itr', mr')
  | fuel + 1, .rpt n, itr, mr => rptLoop fuel n itr [] mr
  | fuel + 1, .seq ns, itr, mr => matchSeq fuel ns itr mr

/-- Embeds `SeqNode::match_chars`: children matched in order directly on the
caller's cursor, outputs concatenated; a child failure propagates, leaving the
cursor wherever the failing child left it. -/
def matchSeq : Nat → List Node → Str → MR → Option (Option Str × Str × MR)
  | 0, _, _, _ => none
  | _ + 1, [], itr, mr => some (some [], itr, mr)
  | fuel + 1, n :: ns, itr, mr =>
    match matchChars fuel n itr mr with
    | none => none
    | some (none, itr', mr') => some (none, itr', mr')
    | some (some s, itr', mr') =>
      match matchSeq fuel ns itr' mr' with
      | none => none
      | some (none, itr'', mr'') => some (none, itr'', mr'')
      | some (some s2, itr'', mr'') => some (some (s ++ s2), itr'', mr'')

/-- Embeds `AltNode::match_chars`: each branch runs on a clone of the cursor;
the first success commits that clone's position; a failed branch keeps its
`MatchResult` writes but not its cursor movement. -/
def matchAlt : Nat → List (List Node) → Str → MR → Option (Option Str × Str × MR)
  | 0, _, _, _ => none
  | _ + 1, [], itr, mr => some (none, itr, mr)
  | fuel + 1, alt :: rest, itr, mr =>
    match matchSeq fuel alt itr mr with
    | none => none
    | some (some s, itr', mr') => some (some s, itr', mr')
    | some (none, _, mr') => matchAlt fuel rest itr mr'

/-- Embeds the loop of `RptNode::match_chars`.  The Rust code keeps a `clone`
variable holding the cursor value at the start of the current iteration and
restores `itr` from it after the loop; with value semantics that checkpoint is
just the `itr` argument of the current call, so the failure branch returns
`itr` unchanged (discarding the failed attempt's cursor movement, keeping its
`MatchResult` writes). -/
def rptLoop : Nat → Node → Str → Str → MR → Option (Option Str × Str × MR)
  | 0, _, _, _, _ => none
  | fuel + 1, n, itr, out, mr =>
    match matchChars fuel n itr mr with
    | none => none
    | some (none, _, mr') => some (some out, itr, mr')
    | some (some s, itr', mr') => rptLoop fuel n itr' (out ++ s) mr'

end

/-- Embeds `Regex::match_chars` (and `Regex::match_str`): run the root group
on the whole subject with a fresh `MatchResult`; succeed only if the root
matched and the cursor is exhausted (`itr.count() == 0`).  The outer `Option`
is the fuel layer, the inner `Option MR` is the Rust return value. -/
def matchWholeFuel (fuel : Nat) (root : Node) (s : String) : Option (Option MR) :=
  match matchChars fuel root s.data [] with
  | none => none
  | some (res, itr, mr) =>
    some (if res.isSome && itr.isEmpty then some mr else none)

/-- One constructor per distinct `panic!` in the parser. -/
inductive PErr where
  | extraRParen
  | starNoNode
  | plusNoNode
  | emptyClass
  | untermClass
  | invalidEscape
  | danglingEscape
deriving DecidableEq

/-- Embeds the scanning loop of `CharClassNode::parse` (after the first
character has been handled): accumulate elements until an unescaped `]`. -/
def classLoop : Str → Str → Except PErr (Str × Str)
  | _, [] => .error .untermClass
  | elems, c :: rest =>
    if c = ']' then .ok (elems, rest)
    else if c = '\\' then
      match rest with
      | [] => .error .danglingEscape
      | e :: rest' =>
        match parseEscapeChar e with
        | none => .error .invalidEscape
        | some m => classLoop (setInsert elems m) rest'
    else classLoop (setInsert elems c) rest

/-- Embeds `CharClassNode::parse`: handle the first character (optional `^`,
immediate `]` is an empty class, escape, literal, or end of input), then run
`classLoop`; an unterminated class is reported before an empty one, as in the
Rust code. -/
def parseClass (input : Str) : Except PErr (Str × Bool × Str) :=
  match input with
  | [] => .error .untermClass
  | c :: rest =>
    if c = '^' then finishClass [] true rest
    else if c = ']' then .error .emptyClass
    else if c = '\\' then
      match rest with
      | [] => .error .danglingEscape
      | e :: rest' =>
        match parseEscapeChar e with
        | none => .error .invalidEscape
        | some m => finishClass [m] false rest'
    else finishClass [c] false rest
where
  finishClass (elems : Str) (negated : Bool) (rest : Str) :
      Except PErr (Str × Bool × Str) :=
    match classLoop elems rest with
    | .error e => .error e
    | .ok (elems', rest') =>
      if elems' = [] then .error .emptyClass else .ok (elems', negated, rest')

/-- Embeds the scanning loop of `GrpNode::parse`.  The group under
construction is `(mynum, done, cur)`: `done` holds the completed alternative
branches and `cur` is the branch being built (the Rust code keeps them as one
vector whose last element is the current branch).  `cnt` is the shared group
counter `*num`, `root` the top-level flag.  Fuel (`none` when exhausted) makes
the nested-group recursion well-founded; `input.length + 1` is always
enough because every recursive call consumes at least one character. -/
def parseLoop : Nat → Str → Nat → Bool → Nat → List (List Node) → List Node →
    Option (Except PErr (Node × Str × Nat))
  | 0, _, _, _, _, _, _ => none
  | fuel + 1, input, cnt, root, mynum, done, cur =>
    match input with
    | [] => some (.ok (.grp mynum (done ++ [cur]), [], cnt))
    | c :: rest =>
      if c = '(' then
        -- `*num += 1` and recursive `GrpNode::parse(itr, num, false)`.
        match parseLoop fuel rest (cnt + 1) false (cnt + 1) [] [] with
        | none => none
        | some (.error e) => some (.error e)
        | some (.ok (g, rest2, cnt')) =>
          parseLoop fuel rest2 cnt' root mynum done (cur ++ [g])
      else if c = '|' then
        -- `add_alt`: close the current branch, open a fresh one.
        parseLoop fuel rest cnt root mynum (done ++ [cur]) []
      else if c = ')' then
        if root then some (.error .extraRParen)
        else some (.ok (.grp mynum (done ++ [cur]), rest, cnt))
      else if c = '*' then
        -- pop the previous node and nest it under a repeat node.
        match cur.getLast? with
        | none => some (.error .starNoNode)
        | some n => parseLoop fuel rest cnt root mynum done (cur.dropLast ++ [.rpt n])
      else if c = '+' then
        -- `clone_back`: share the previous node, append a repeat of it.
        match cur.getLast? with
        | none => some (.error .plusNoNode)
        | some n => parseLoop fuel rest cnt root mynum done (cur ++ [.rpt n])
      else if c = '[' then
        match parseClass rest with
        | .error e => some (.error e)
        | .ok (elems, negated, rest') =>
          parseLoop fuel rest' cnt root mynum done (cur ++ [.cclass elems negated])
      else if c = '\\' then
        match rest with
        | [] => some (.error .danglingEscape)
        | e :: rest' =>
          match parseEscape e with
          | none => some (.error .invalidEscape)
          | some n => parseLoop fuel rest' cnt root mynum done (cur ++ [n])
      else parseLoop fuel rest cnt root mynum done (cur ++ [.char c])

/-- Embeds `GrpNode::parse`: a fresh group numbered with the current counter
value, one empty branch, then the scan loop. -/
def parseGrp (fuel : Nat) (input : Str) (cnt : Nat) (root : Bool) :
    Option (Except PErr (Node × Str × Nat)) :=
  parseLoop fuel input cnt root cnt [] []

/-- Embeds `Regex::from_str`: parse the whole pattern as the root group with
the counter starting at 0.  The outer `Option` is the parser fuel layer
(always `some` at this fuel), the `Except` layer holds the `panic!` outcome. -/
def parseRegex (s : String) : Option (Except PErr Node) :=
  match parseGrp (s.data.length + 1) s.data 0 true with
  | none => none
  | some (.error e) => some (.error e)
  | some (.ok (g, _, _)) => some (.ok g)

mutual

/-- Embeds the `debug` implementations: `Char{c}` for literals, `[...]` /
`[^...]` for classes, parentheses around groups except group 0, `|` between
alternative branches, a trailing `*` for repeats.  `debugAlts` is the loop
body of `AltNode::debug` (every branch followed by `|`); the final `s.pop()`
is the `dropLast` in the group case, packaged below as `debugAlt`. -/
def debugNode : Node → Str
  | .char c => "Char\x7b".data ++ [c] ++ "\x7d".data
  | .cclass elems negated =>
    ['['] ++ (if negated then ['^'] else []) ++ elems ++ [']']
  | .grp num alts =>
    if num = 0 then (debugAlts alts).dropLast
    else ['('] ++ (debugAlts alts).dropLast ++ [')']
  | .rpt n => debugNode n ++ ['*']
  | .seq ns => debugSeq ns

/-- Embeds `SeqNode::debug`: concatenation of the children's renderings. -/
def debugSeq : List Node → Str
  | [] => []
  | n :: ns => debugNode n ++ debugSeq ns

/-- Loop of `AltNode::debug` before the trailing `pop`. -/
def debugAlts : List (List Node) → Str
  | [] => []
  | b :: bs => debugSeq b ++ ['|'] ++ debugAlts bs

end

/-- Embeds `AltNode::debug`: branch renderings joined by `|` (trailing one
popped). -/
def debugAlt (alts : List (List Node)) : Str := (debugAlts alts).dropLast

mutual

/-- `nonNullable n = true` means a successful match of `n` always consumes at
least one input character (proved below as `nnConsumes`).  Literals and
classes always consume; a repeat can succeed on nothing; a sequence consumes
whenever some member does; a group consumes whenever every branch does. -/
def nonNullable : Node → Bool
  | .char _ => true
  | .cclass _ _ => true
  | .grp _ alts => nnAlts alts
  | .rpt _ => false
  | .seq ns => nnSeq ns

/-- Some member of the sequence is non-nullable. -/
def nnSeq : List Node → Bool
  | [] => false
  | n :: ns => nonNullable n || nnSeq ns

/-- Every alternative branch is non-nullable. -/
def nnAlts : List (List Node) → Bool
  | [] => true
  | b :: bs => nnSeq b && nnAlts bs

end

mutual

/-- The side condition under which the matcher terminates: the wrapped node of
every `Repeat` in the tree is non-nullable. -/
def wfN : Node → Bool
  | .char _ => true
  | .cclass _ _ => true
  | .grp _ alts => wfAlts alts
  | .rpt n => nonNullable n && wfN n
  | .seq ns => wfSeq ns

/-- `wfN` on every member of a sequence. -/
def wfSeq : List Node → Bool
  | [] => true
  | n :: ns => wfN n && wfSeq ns

/-- `wfSeq` on every alternative branch. -/
def wfAlts : List (List Node) → Bool
  | [] => true
  | b :: bs => wfSeq b && wfAlts bs

end

/-! ## General lemmas about the matcher -/

theorem lookup_mrInsert (mr : MR) (k : Nat) (v : Str) :
    (mrInsert mr k v).lookup k = some v := by
  induction mr with
  | nil => simp [mrInsert, List.lookup]
  | cons kv rest ih =>
    obtain ⟨k', v'⟩ := kv
    by_cases h1 : k < k'
    · simp [mrInsert, h1, List.lookup]
    · by_cases h2 : k = k'
      · simp [mrInsert, h1, h2, List.lookup]
      · have hb : (k == k') = false := by simp [h2]
        simp [mrInsert, h1, h2, List.lookup, hb, ih]

/-- More fuel never changes a result that was already delivered. -/
theorem monoStep : ∀ fuel,
    (∀ n itr mr r, matchChars fuel n itr mr = some r →
      matchChars (fuel + 1) n itr mr = some r) ∧
    (∀ ns itr mr r, matchSeq fuel ns itr mr = some r →
      matchSeq (fuel + 1) ns itr mr = some r) ∧
    (∀ alts itr mr r, matchAlt fuel alts itr mr = some r →
      matchAlt (fuel + 1) alts itr mr = some r) ∧
    (∀ n itr out mr r, rptLoop fuel n itr out mr = some r →
      rptLoop (fuel + 1) n itr out mr = some r) := by
  intro fuel
  induction fuel with
  | zero =>
    refine ⟨fun n itr mr r h => ?_, fun ns itr mr r h => ?_,
      fun alts itr mr r h => ?_, fun n itr out mr r h => ?_⟩ <;>
      simp [matchChars, matchSeq, matchAlt, rptLoop] at h
  | succ f ih =>
    obtain ⟨ihN, ihS, ihA, ihL⟩ := ih
    refine ⟨?_, ?_, ?_, ?_⟩
    · intro n itr mr r h
      cases n with
      | char c => simpa [matchChars] using h
      | cclass elems negated => simpa [matchChars] using h
      | grp num alts =>
        cases h1 : matchAlt f alts itr mr with
        | none => simp [matchChars, h1] at h
        | some x =>
          obtain ⟨res, itr', mr'⟩ := x
          have h2 := ihA alts itr mr _ h1
          cases res <;> simp only [matchChars, h1] at h <;>
            simp only [matchChars, h2] <;> exact h
      | rpt n =>
        simp only [matchChars] at h ⊢
        exact ihL n itr [] mr r h
      | seq ns =>
        simp only [matchChars] at h ⊢
        exact ihS ns itr mr r h
    · intro ns itr mr r h
      cases ns with
      | nil => simpa [matchSeq] using h
      | cons n ns =>
        cases h1 : matchChars f n itr mr with
        | none => simp [matchSeq, h1] at h
        | some x =>
          obtain ⟨res, itr', mr'⟩ := x
          have h2 := ihN n itr mr _ h1
          cases res with
          | none =>
            simp only [matchSeq, h1] at h
            simp only [matchSeq, h2]
            exact h
          | some s =>
            cases h3 : matchSeq f ns itr' mr' with
            | none => simp [matchSeq, h1, h3] at h
            | some y =>
              obtain ⟨res2, itr'', mr''⟩ := y
              have h4 := ihS ns itr' mr' _ h3
              cases res2 <;> simp only [matchSeq, h1, h3] at h <;>
                simp only [matchSeq, h2, h4] <;> exact h
    · intro alts itr mr r h
      cases alts with
      | nil => simpa [matchAlt] using h
      | cons alt rest =>
        cases h1 : matchSeq f alt itr mr with
        | none => simp [matchAlt, h1] at h
        | some x =>
          obtain ⟨res, itr', mr'⟩ := x
          have h2 := ihS alt itr mr _ h1
          cases res with
          | some s =>
            simp only [matchAlt, h1] at h
            simp only [matchAlt, h2]
            exact h
          | none =>
            simp only [matchAlt, h1] at h
            have h3 := ihA rest itr mr' r h
            simp only [matchAlt, h2]
            exact h3
    · intro n itr out mr r h
      cases h1 : matchChars f n itr mr with
      | none => simp [rptLoop, h1] at h
      | some x =>
        obtain ⟨res, itr', mr'⟩ := x
        have h2 := ihN n itr mr _ h1
        cases res with
        | none =>
          simp only [rptLoop, h1] at h
          simp only [rptLoop, h2]
          exact h
        | some s =>
          simp only [rptLoop, h1] at h
          have h3 := ihL n itr' (out ++ s) mr' r h
          simp only [rptLoop, h2]
          exact h3

theorem monoN {f g : Nat} (hle : f ≤ g) {n itr mr r}
    (h : matchChars f n itr mr = some r) : matchChars g n itr mr = some r := by
  induction hle with
  | refl => exact h
  | step _ ih => exact (monoStep _).1 _ _ _ _ ih

theorem monoS {f g : Nat} (hle : f ≤ g) {ns itr mr r}
    (h : matchSeq f ns itr mr = some r) : matchSeq g ns itr mr = some r := by
  induction hle with
  | refl => exact h
  | step _ ih => exact (monoStep _).2.1 _ _ _ _ ih

theorem monoA {f g : Nat} (hle : f ≤ g) {alts itr mr r}
    (h : matchAlt f alts itr mr = some r) : matchAlt g alts itr mr = some r := by
  induction hle with
  | refl => exact h
  | step _ ih => exact (monoStep _).2.2.1 _ _ _ _ ih

theorem monoL {f g : Nat} (hle : f ≤ g) {n itr out mr r}
    (h : rptLoop f n itr out mr = some r) : rptLoop g n itr out mr = some r := by
  induction hle with
  | refl => exact h
  | step _ ih => exact (monoStep _).2.2.2 _ _ _ _ _ ih

/-- A successful match returns exactly the characters it consumed: the output
followed by the final cursor is the starting cursor.  The `rptLoop` clause
also records that the loop can only ever report success, extending the
accumulator. -/
theorem prefStep : ∀ fuel,
    (∀ n itr mr out itr' mr',
      matchChars fuel n itr mr = some (some out, itr', mr') → out ++ itr' = itr) ∧
    (∀ ns itr mr out itr' mr',
      matchSeq fuel ns itr mr = some (some out, itr', mr') → out ++ itr' = itr) ∧
    (∀ alts itr mr out itr' mr',
      matchAlt fuel alts itr mr = some (some out, itr', mr') → out ++ itr' = itr) ∧
    (∀ n itr out0 mr res itr' mr',
      rptLoop fuel n itr out0 mr = some (res, itr', mr') →
      ∃ u, res = some (out0 ++ u) ∧ u ++ itr' = itr) := by
  intro fuel
  induction fuel with
  | zero =>
    refine ⟨fun n itr mr out itr' mr' h => ?_, fun ns itr mr out itr' mr' h => ?_,
      fun alts itr mr out itr' mr' h => ?_, fun n itr out0 mr res itr' mr' h => ?_⟩ <;>
      simp [matchChars, matchSeq, matchAlt, rptLoop] at h
  | succ f ih =>
    obtain ⟨ihN, ihS, ihA, ihL⟩ := ih
    refine ⟨?_, ?_, ?_, ?_⟩
    · intro n itr mr out itr' mr' h
      cases n with
      | char c =>
        cases itr with
        | nil => simp [matchChars] at h
        | cons c' rest =>
          by_cases hc : c' = c
          · simp only [matchChars, if_pos hc] at h
            obtain ⟨h1, h2, h3⟩ := by simpa using h
            subst h1; subst h2; rfl
          · simp [matchChars, if_neg hc] at h
      | cclass elems negated =>
        cases itr with
        | nil => simp [matchChars] at h
        | cons c rest =>
          simp only [matchChars] at h
          split at h
          · obtain ⟨h1, h2, h3⟩ := by simpa using h
            subst h1; subst h2; rfl
          · simp at h
      | grp num alts =>
        cases h1 : matchAlt f alts itr mr with
        | none => simp [matchChars, h1] at h
        | some x =>
          obtain ⟨res, itr2, mr2⟩ := x
          cases res with
          | none => simp [matchChars, h1] at h
          | some s =>
            have hp := ihA alts itr mr s itr2 mr2 h1
            simp only [matchChars, h1] at h
            obtain ⟨hs, hit, _⟩ := by simpa using h
            subst hs; subst hit; exact hp
      | rpt n =>
        simp only [matchChars] at h
        obtain ⟨u, hu, hpre⟩ := ihL n itr [] mr (some out) itr' mr' h
        obtain rfl : out = u := by simpa using hu
        exact hpre
      | seq ns =>
        simp only [matchChars] at h
        exact ihS ns itr mr out itr' mr' h
    · intro ns itr mr out itr' mr' h
      cases ns with
      | nil =>
        obtain ⟨h1, h2, h3⟩ := by simpa [matchSeq] using h
        subst h1; subst h2; rfl
      | cons n ns =>
        cases h1 : matchChars f n itr mr with
        | none => simp [matchSeq, h1] at h
        | some x =>
          obtain ⟨res, itr2, mr2⟩ := x
          cases res with
          | none => simp [matchSeq, h1] at h
          | some s =>
            have hp1 := ihN n itr mr s itr2 mr2 h1
            cases h2 : matchSeq f ns itr2 mr2 with
            | none => simp [matchSeq, h1, h2] at h
            | some y =>
              obtain ⟨res2, itr3, mr3⟩ := y
              cases res2 with
              | none => simp [matchSeq, h1, h2] at h
              | some s2 =>
                have hp2 := ihS ns itr2 mr2 s2 itr3 mr3 h2
                simp only [matchSeq, h1, h2] at h
                obtain ⟨hs, hit, _⟩ := by simpa using h
                subst hs; subst hit
                rw [List.append_assoc, hp2, hp1]
    · intro alts itr mr out itr' mr' h
      cases alts with
      | nil => simp [matchAlt] at h
      | cons alt rest =>
        cases h1 : matchSeq f alt itr mr with
        | none => simp [matchAlt, h1] at h
        | some x =>
          obtain ⟨res, itr2, mr2⟩ := x
          cases res with
          | some s =>
            have hp := ihS alt itr mr s itr2 mr2 h1
            simp only [matchAlt, h1] at h
            obtain ⟨hs, hit, _⟩ := by simpa using h
            subst hs; subst hit; exact hp
          | none =>
            simp only [matchAlt, h1] at h
            exact ihA rest itr mr2 out itr' mr' h
    · intro n itr out0 mr res itr' mr' h
      cases h1 : matchChars f n itr mr with
      | none => simp [rptLoop, h1] at h
      | some x =>
        obtain ⟨res1, itr2, mr2⟩ := x
        cases res1 with
        | none =>
          simp only [rptLoop, h1] at h
          obtain ⟨hr, hit, _⟩ := by simpa using h
          subst hr; subst hit
          exact ⟨[], by simp⟩
        | some s =>
          have hp1 := ihN n itr mr s itr2 mr2 h1
          simp only [rptLoop, h1] at h
          obtain ⟨u1, hu1, hpre1⟩ := ihL n itr2 (out0 ++ s) mr2 res itr' mr' h
          refine ⟨s ++ u1, ?_, ?_⟩
          · rw [hu1, List.append_assoc]
          · rw [List.append_assoc, hpre1, hp1]

theorem prefN {fuel n itr mr out itr' mr'}
    (h : matchChars fuel n itr mr = some (some out, itr', mr')) : out ++ itr' = itr :=
  (prefStep fuel).1 n itr mr out itr' mr' h

theorem prefL {fuel n itr out0 mr res itr' mr'}
    (h : rptLoop fuel n itr out0 mr = some (res, itr', mr')) :
    ∃ u, res = some (out0 ++ u) ∧ u ++ itr' = itr :=
  (prefStep fuel).2.2.2 n itr out0 mr res itr' mr' h

/-- A non-nullable node never succeeds on the empty match. -/
theorem nnStep : ∀ fuel,
    (∀ n itr mr out itr' mr', nonNullable n = true →
      matchChars fuel n itr mr = some (some out, itr', mr') → out ≠ []) ∧
    (∀ ns itr mr out itr' mr', nnSeq ns = true →
      matchSeq fuel ns itr mr = some (some out, itr', mr') → out ≠ []) ∧
    (∀ alts itr mr out itr' mr', nnAlts alts = true →
      matchAlt fuel alts itr mr = some (some out, itr', mr') → out ≠ []) := by
  intro fuel
  induction fuel with
  | zero =>
    refine ⟨fun n itr mr out itr' mr' _ h => ?_, fun ns itr mr out itr' mr' _ h => ?_,
      fun alts itr mr out itr' mr' _ h => ?_⟩ <;>
      simp [matchChars, matchSeq, matchAlt] at h
  | succ f ih =>
    obtain ⟨ihN, ihS, ihA⟩ := ih
    refine ⟨?_, ?_, ?_⟩
    · intro n itr mr out itr' mr' hnn h
      cases n with
      | char c =>
        cases itr with
        | nil => simp [matchChars] at h
        | cons c' rest =>
          by_cases hc : c' = c
          · simp only [matchChars, if_pos hc] at h
            obtain ⟨h1, _, _⟩ := by simpa using h
            subst h1; simp
          · simp [matchChars, if_neg hc] at h
      | cclass elems negated =>
        cases itr with
        | nil => simp [matchChars] at h
        | cons c rest =>
          simp only [matchChars] at h
          split at h
          · obtain ⟨h1, _, _⟩ := by simpa using h
            subst h1; simp
          · simp at h
      | grp num alts =>
        cases h1 : matchAlt f alts itr mr with
        | none => simp [matchChars, h1] at h
        | some x =>
          obtain ⟨res, itr2, mr2⟩ := x
          cases res with
          | none => simp [matchChars, h1] at h
          | some s =>
            simp only [matchChars, h1] at h
            obtain ⟨hs, _, _⟩ := by simpa using h
            subst hs
            exact ihA alts itr mr _ itr2 mr2 (by simpa [nonNullable] using hnn) h1
      | rpt n => simp [nonNullable] at hnn
      | seq ns =>
        simp only [matchChars] at h
        exact ihS ns itr mr out itr' mr' (by simpa [nonNullable] using hnn) h
    · intro ns itr mr out itr' mr' hnn h
      cases ns with
      | nil => simp [nnSeq] at hnn
      | cons n ns =>
        cases h1 : matchChars f n itr mr with
        | none => simp [matchSeq, h1] at h
        | some x =>
          obtain ⟨res, itr2, mr2⟩ := x
          cases res with
          | none => simp [matchSeq, h1] at h
          | some s =>
            cases h2 : matchSeq f ns itr2 mr2 with
            | none => simp [matchSeq, h1, h2] at h
            | some y =>
              obtain ⟨res2, itr3, mr3⟩ := y
              cases res2 with
              | none => simp [matchSeq, h1, h2] at h
              | some s2 =>
                simp only [matchSeq, h1, h2] at h
                obtain ⟨hs, _, _⟩ := by simpa using h
                subst hs
                have hnn' : nonNullable n = true ∨ nnSeq ns = true := by
                  simpa [nnSeq, Bool.or_eq_true] using hnn
                rcases hnn' with hnn' | hnn'
                · have := ihN n itr mr s itr2 mr2 hnn' h1
                  simp [List.append_eq_nil]
                  intro hnil _
                  exact this hnil
                · have := ihS ns itr2 mr2 s2 itr3 mr3 hnn' h2
                  simp [List.append_eq_nil]
                  intro _ hnil
                  exact this hnil
    · intro alts itr mr out itr' mr' hnn h
      cases alts with
      | nil => simp [matchAlt] at h
      | cons alt rest =>
        have hnn' : nnSeq alt = true ∧ nnAlts rest = true := by
          simpa [nnAlts, Bool.and_eq_true] using hnn
        cases h1 : matchSeq f alt itr mr with
        | none => simp [matchAlt, h1] at h
        | some x =>
          obtain ⟨res, itr2, mr2⟩ := x
          cases res with
          | some s =>
            simp only [matchAlt, h1] at h
            obtain ⟨hs, _, _⟩ := by simpa using h
            subst hs
            exact ihS alt itr mr s itr2 mr2 hnn'.1 h1
          | none =>
            simp only [matchAlt, h1] at h
            exact ihA rest itr mr2 out itr' mr' hnn'.2 h

/-- Embeds the backtracking guarantee of `AltNode::match_chars`: when every
branch fails, the cursor handed back to the caller is the one it passed in. -/
theorem altRestore : ∀ fuel alts itr mr itr' mr',
    matchAlt fuel alts itr mr = some (none, itr', mr') → itr' = itr := by
  intro fuel
  induction fuel with
  | zero => intro alts itr mr itr' mr' h; simp [matchAlt] at h
  | succ f ih =>
    intro alts itr mr itr' mr' h
    cases alts with
    | nil =>
      obtain ⟨h1, _⟩ := by simpa [matchAlt] using h
      exact h1.symm
    | cons alt rest =>
      cases h1 : matchSeq f alt itr mr with
      | none => simp [matchAlt, h1] at h
      | some x =>
        obtain ⟨res, itr2, mr2⟩ := x
        cases res with
        | some s => simp [matchAlt, h1] at h
        | none =>
          simp only [matchAlt, h1] at h
          exact ih rest itr mr2 itr' mr' h

theorem wfSeq_mem : ∀ {ns : List Node} {n : Node},
    wfSeq ns = true → n ∈ ns → wfN n = true := by
  intro ns
  induction ns with
  | nil => intro n _ hn; simp at hn
  | cons m ms ih =>
    intro n hw hn
    rw [wfSeq, Bool.and_eq_true] at hw
    rcases List.mem_cons.mp hn with rfl | hn
    · exact hw.1
    · exact ih hw.2 hn

theorem wfAlts_mem : ∀ {alts : List (List Node)} {b : List Node},
    wfAlts alts = true → b ∈ alts → wfSeq b = true := by
  intro alts
  induction alts with
  | nil => intro b _ hb; simp at hb
  | cons a as ih =>
    intro b hw hb
    rw [wfAlts, Bool.and_eq_true] at hw
    rcases List.mem_cons.mp hb with rfl | hb
    · exact hw.1
    · exact ih hw.2 hb

/-- Sequence matching terminates when every member's matching terminates. -/
theorem termSeqAux (ns : List Node)
    (H : ∀ n, n ∈ ns → ∀ itr mr, ∃ fuel r, matchChars fuel n itr mr = some r) :
    ∀ itr mr, ∃ fuel r, matchSeq fuel ns itr mr = some r := by
  induction ns with
  | nil => intro itr mr; exact ⟨1, (some [], itr, mr), rfl⟩
  | cons n ns ih =>
    intro itr mr
    obtain ⟨f1, ⟨res1, itr1, mr1⟩, h1⟩ := H n (by simp) itr mr
    cases res1 with
    | none =>
      exact ⟨f1 + 1, (none, itr1, mr1), by simp [matchSeq, h1]⟩
    | some s =>
      obtain ⟨f2, ⟨res2, itr2, mr2⟩, h2⟩ :=
        ih (fun n' hn' itr mr => H n' (by simp [hn']) itr mr) itr1 mr1
      have h1' : matchChars (max f1 f2) n itr mr = some (some s, itr1, mr1) :=
        monoN (le_max_left f1 f2) h1
      have h2' : matchSeq (max f1 f2) ns itr1 mr1 = some (res2, itr2, mr2) :=
        monoS (le_max_right f1 f2) h2
      cases res2 with
      | none =>
        exact ⟨max f1 f2 + 1, (none, itr2, mr2), by simp [matchSeq, h1', h2']⟩
      | some s2 =>
        exact ⟨max f1 f2 + 1, (some (s ++ s2), itr2, mr2), by simp [matchSeq, h1', h2']⟩

/-- Alternation matching terminates when every branch's matching terminates. -/
theorem termAltAux (alts : List (List Node))
    (H : ∀ b, b ∈ alts → ∀ itr mr, ∃ fuel r, matchSeq fuel b itr mr = some r) :
    ∀ itr mr, ∃ fuel r, matchAlt fuel alts itr mr = some r := by
  induction alts with
  | nil => intro itr mr; exact ⟨1, (none, itr, mr), rfl⟩
  | cons alt rest ih =>
    intro itr mr
    obtain ⟨f1, ⟨res1, itr1, mr1⟩, h1⟩ := H alt (by simp) itr mr
    cases res1 with
    | some s =>
      exact ⟨f1 + 1, (some s, itr1, mr1), by simp [matchAlt, h1]⟩
    | none =>
      obtain ⟨f2, ⟨res2, itr2, mr2⟩, h2⟩ :=
        ih (fun b hb itr mr => H b (by simp [hb]) itr mr) itr mr1
      have h1' : matchSeq (max f1 f2) alt itr mr = some (none, itr1, mr1) :=
        monoS (le_max_left f1 f2) h1
      have h2' : matchAlt (max f1 f2) rest itr mr1 = some (res2, itr2, mr2) :=
        monoA (le_max_right f1 f2) h2
      exact ⟨max f1 f2 + 1, (res2, itr2, mr2), by simp [matchAlt, h1', h2']⟩

/-- The repeat loop terminates when the wrapped node is non-nullable and its
matching terminates: every successful iteration strictly shortens the cursor. -/
theorem termLoopAux (n : Node) (hnn : nonNullable n = true)
    (H : ∀ itr mr, ∃ fuel r, matchChars fuel n itr mr = some r) :
    ∀ k itr, itr.length ≤ k → ∀ out mr, ∃ fuel r, rptLoop fuel n itr out mr = some r := by
  intro k
  induction k with
  | zero =>
    intro itr hlen out mr
    have hitr : itr = [] := List.length_eq_zero.mp (Nat.le_zero.mp hlen)
    subst hitr
    obtain ⟨f1, ⟨res1, itr1, mr1⟩, h1⟩ := H [] mr
    cases res1 with
    | none => exact ⟨f1 + 1, (some out, [], mr1), by simp [rptLoop, h1]⟩
    | some s =>
      have hpre := prefN h1
      have hs := (nnStep f1).1 n [] mr s itr1 mr1 hnn h1
      exact absurd (List.append_eq_nil.mp hpre).1 hs
  | succ k ihk =>
    intro itr hlen out mr
    obtain ⟨f1, ⟨res1, itr1, mr1⟩, h1⟩ := H itr mr
    cases res1 with
    | none => exact ⟨f1 + 1, (some out, itr, mr1), by simp [rptLoop, h1]⟩
    | some s =>
      have hpre := prefN h1
      have hs := (nnStep f1).1 n itr mr s itr1 mr1 hnn h1
      have hlt : itr1.length ≤ k := by
        have hlen' := congrArg List.length hpre
        rw [List.length_append] at hlen'
        have hspos : 0 < s.length := List.length_pos.mpr hs
        omega
      obtain ⟨f2, r2, h2⟩ := ihk itr1 hlt (out ++ s) mr1
      have h1' : matchChars (max f1 f2) n itr mr = some (some s, itr1, mr1) :=
        monoN (le_max_left f1 f2) h1
      have h2' : rptLoop (max f1 f2) n itr1 (out ++ s) mr1 = some r2 :=
        monoL (le_max_right f1 f2) h2
      exact ⟨max f1 f2 + 1, r2, by simp [rptLoop, h1', h2']⟩

/-- Matching a tree whose repeats all wrap non-nullable nodes terminates, for
every cursor and capture map. -/
theorem termAux : ∀ k (n : Node), sizeOf n ≤ k → wfN n = true →
    ∀ itr mr, ∃ fuel r, matchChars fuel n itr mr = some r := by
  intro k
  induction k with
  | zero =>
    intro n hsz
    exact absurd hsz (by cases n <;> simp)
  | succ k ihk =>
    intro n hsz hwf itr mr
    cases n with
    | char c =>
      cases itr with
      | nil => exact ⟨1, (none, [], mr), rfl⟩
      | cons c' rest =>
        by_cases hc : c' = c
        · exact ⟨1, (some [c'], rest, mr), by simp [matchChars, hc]⟩
        · exact ⟨1, (none, rest, mr), by simp [matchChars, hc]⟩
    | cclass elems negated =>
      cases itr with
      | nil => exact ⟨1, (none, [], mr), rfl⟩
      | cons c rest =>
        by_cases hc : ((negated && !(elems.contains c)) || (!negated && elems.contains c)) = true
        · refine ⟨1, (some [c], rest, mr), ?_⟩
          simp only [matchChars]
          rw [if_pos hc]
        · refine ⟨1, (none, rest, mr), ?_⟩
          simp only [matchChars]
          rw [if_neg hc]
    | grp num alts =>
      have hterm : ∀ b, b ∈ alts → ∀ itr mr, ∃ fuel r, matchSeq fuel b itr mr = some r := by
        intro b hb
        refine termSeqAux b ?_
        intro n' hn' itr mr
        refine ihk n' ?_ (wfSeq_mem (wfAlts_mem (by simpa [wfN] using hwf) hb) hn') itr mr
        have hs1 : sizeOf n' < sizeOf b := List.sizeOf_lt_of_mem hn'
        have hs2 : sizeOf b < sizeOf alts := List.sizeOf_lt_of_mem hb
        have hs3 : sizeOf (Node.grp num alts) = 1 + sizeOf num + sizeOf alts := by simp
        omega
      obtain ⟨f1, ⟨res1, itr1, mr1⟩, h1⟩ := termAltAux alts hterm itr mr
      cases res1 with
      | some s =>
        exact ⟨f1 + 1, (some s, itr1, mrInsert mr1 num s), by simp [matchChars, h1]⟩
      | none =>
        exact ⟨f1 + 1, (none, itr1, mr1), by simp [matchChars, h1]⟩
    | rpt n =>
      have hwf' : nonNullable n = true ∧ wfN n = true := by
        simpa [wfN, Bool.and_eq_true] using hwf
      have hterm : ∀ itr mr, ∃ fuel r, matchChars fuel n itr mr = some r := by
        intro itr mr
        refine ihk n ?_ hwf'.2 itr mr
        have hs3 : sizeOf (Node.rpt n) = 1 + sizeOf n := by simp
        omega
      obtain ⟨f1, r1, h1⟩ := termLoopAux n hwf'.1 hterm itr.length itr le_rfl [] mr
      exact ⟨f1 + 1, r1, by simp [matchChars, h1]⟩
    | seq ns =>
      have hterm : ∀ itr mr, ∃ fuel r, matchSeq fuel ns itr mr = some r := by
        refine termSeqAux ns ?_
        intro n' hn' itr mr
        refine ihk n' ?_ (wfSeq_mem (by simpa [wfN] using hwf) hn') itr mr
        have hs1 : sizeOf n' < sizeOf ns := List.sizeOf_lt_of_mem hn'
        have hs3 : sizeOf (Node.seq ns) = 1 + sizeOf ns := by simp
        omega
      obtain ⟨f1, r1, h1⟩ := hterm itr mr
      exact ⟨f1 + 1, r1, by simp [matchChars, h1]⟩

/-- The repeat-of-a-repeat loop never finishes on an exhausted cursor, for any
amount of fuel: the inner repeat always reports success without consuming, so
the outer `while` in `RptNode::match_chars` never exits. -/
theorem rptRptDiverges : ∀ f (out : Str) (mr : MR),
    rptLoop f (.rpt (.char 'a')) [] out mr = none := by
  intro f
  induction f with
  | zero => intro out mr; rfl
  | succ f ih =>
    intro out mr
    match f, ih with
    | 0, _ => rfl
    | 1, _ => rfl
    | 2, _ => rfl
    | i + 3, ih =>
      -- with fuel at least 3 the inner repeat returns an empty success
      -- without moving the cursor, so the outer loop iterates in place
      have hstep : rptLoop (i + 3 + 1) (.rpt (.char 'a')) [] out mr
          = rptLoop (i + 3) (.rpt (.char 'a')) [] (out ++ []) mr := rfl
      rw [hstep]
      exact ih (out ++ []) mr

/-- The tree parsed from the pattern string consisting of an `a` and two
stars never finishes matching the empty cursor, for any amount of fuel. -/
theorem grpRptRptDiverges : ∀ fuel (mr : MR),
    matchChars fuel (.grp 0 [[.rpt (.rpt (.char 'a'))]]) [] mr = none := by
  intro fuel mr
  match fuel with
  | 0 => rfl
  | 1 => rfl
  | 2 => rfl
  | 3 => rfl
  | f + 4 =>
    simp [matchChars, matchAlt, matchSeq, rptRptDiverges]

/-! ## Claim theorems -/

/-- On success a group hands back the capture map produced by its body with
its own number bound to the matched text. -/
theorem grpShape {fuel num alts itr mr out itr' mr0}
    (h : matchChars fuel (.grp num alts) itr mr = some (some out, itr', mr0)) :
    ∃ mr1, mr0 = mrInsert mr1 num out := by
  cases fuel with
  | zero => simp [matchChars] at h
  | succ f =>
    cases h1 : matchAlt f alts itr mr with
    | none => simp [matchChars, h1] at h
    | some x =>
      obtain ⟨res, itr2, mr2⟩ := x
      cases res with
      | none => simp [matchChars, h1] at h
      | some s =>
        simp only [matchChars, h1] at h
        obtain ⟨hs, _, hmr⟩ := by simpa using h
        subst hs
        exact ⟨mr2, hmr.symm⟩

/-- C1: for every pattern tree rooted at the implicit outer group 0 and every
subject, `match_whole` returns a capture map exactly when the root group's
match succeeds with no character left on the cursor; and every returned map
binds key 0 to the full subject. -/
theorem c1_whole_match (fuel : Nat) (alts : List (List Node)) (s : String) (mr : MR) :
    (matchWholeFuel fuel (.grp 0 alts) s = some (some mr) ↔
      ∃ out mr0, matchChars fuel (.grp 0 alts) s.data [] = some (some out, [], mr0)
        ∧ mr0 = mr)
    ∧ (matchWholeFuel fuel (.grp 0 alts) s = some (some mr) →
      mr.lookup 0 = some s.data) := by
  constructor
  · rw [matchWholeFuel]
    cases h : matchChars fuel (.grp 0 alts) s.data [] with
    | none => simp
    | some x =>
      obtain ⟨res, itr, mr0⟩ := x
      cases res with
      | none => simp
      | some out =>
        cases itr with
        | nil => simp [eq_comm]
        | cons c rest => simp
  · intro h
    rw [matchWholeFuel] at h
    cases h0 : matchChars fuel (.grp 0 alts) s.data [] with
    | none => rw [h0] at h; exact absurd h (by simp)
    | some x =>
      obtain ⟨res, itr, mr0⟩ := x
      rw [h0] at h
      cases res with
      | none => simp at h
      | some out =>
        cases itr with
        | cons c rest => simp at h
        | nil =>
          have hmr : mr0 = mr := by simpa using h
          subst hmr
          have hout : out = s.data := by simpa using prefN h0
          obtain ⟨mr1, hshape⟩ := grpShape h0
          rw [hshape, hout]
          exact lookup_mrInsert mr1 0 s.data

theorem c1_whole_match_witness :
    List.lookup 0 ([(0, ['a'])] : MR) = some ("a".data) :=
  (c1_whole_match 5 [[.char 'a']] "a" [(0, ['a'])]).2 rfl

/-- C2 as stated is false: the pattern consisting of `a` followed by two
stars parses, but matching its tree against the empty subject never produces
a result for any amount of fuel: the outer repeat's wrapped node (the inner
repeat) succeeds for ever without consuming, so the Rust loop never exits. -/
theorem c2_counterexample :
    parseRegex "a**" = some (.ok (.grp 0 [[.rpt (.rpt (.char 'a'))]])) ∧
    ¬ ∃ fuel r, matchWholeFuel fuel (.grp 0 [[.rpt (.rpt (.char 'a'))]]) "" = some r := by
  refine ⟨rfl, ?_⟩
  rintro ⟨fuel, r, h⟩
  have h0 : matchChars fuel (.grp 0 [[.rpt (.rpt (.char 'a'))]]) ("".data) [] = none :=
    grpRptRptDiverges fuel []
  rw [matchWholeFuel, h0] at h
  exact Option.noConfusion h

/-- C2 (amended): matching terminates for every subject whenever the wrapped
node of every `Repeat` in the tree cannot succeed without consuming input
(`wfN`); without that restriction the matcher can loop forever. -/
theorem c2_wf_terminates (root : Node) (s : String) (hwf : wfN root = true) :
    ∃ fuel r, matchWholeFuel fuel root s = some r := by
  obtain ⟨fuel, ⟨res, itr, mr⟩, h⟩ := termAux (sizeOf root) root le_rfl hwf s.data []
  refine ⟨fuel, if res.isSome && itr.isEmpty then some mr else none, ?_⟩
  rw [matchWholeFuel, h]

theorem c2_wf_terminates_witness :
    wfN (.grp 0 [[.rpt (.char 'a'), .char 'b']]) = true ∧
    ∃ fuel r, matchWholeFuel fuel (.grp 0 [[.rpt (.char 'a'), .char 'b']]) "aab" = some r :=
  ⟨rfl, c2_wf_terminates (.grp 0 [[.rpt (.char 'a'), .char 'b']]) "aab" rfl⟩

/-- C3 as stated is false: a failing Sequence does not restore the cursor.
Matching the sequence of literals `a`, `b` against the cursor `a x` fails but
hands back the exhausted cursor `[]` instead of the original two-character
cursor (`CharNode` consumes its probe and `SeqNode` keeps the advancement). -/
theorem c3_counterexample :
    matchChars 10 (.seq [.char 'a', .char 'b']) ['a', 'x'] [] = some (none, [], []) ∧
    ([] : Str) ≠ ['a', 'x'] :=
  ⟨rfl, by decide⟩

/-- C3 (amended): the cursor-restoration guarantee holds at the level of
groups (and their alternations): whenever a Group node's match fails, the
cursor handed back equals the cursor passed in; Character and Sequence nodes
may advance the cursor on failure, but they are only reached through the
alternation's clone-and-restore. -/
theorem c3_grp_restores (fuel : Nat) (num : Nat) (alts : List (List Node)) (itr : Str)
    (mr : MR) (itr' : Str) (mr' : MR)
    (h : matchChars fuel (.grp num alts) itr mr = some (none, itr', mr')) : itr' = itr := by
  cases fuel with
  | zero => simp [matchChars] at h
  | succ f =>
    cases h1 : matchAlt f alts itr mr with
    | none => simp [matchChars, h1] at h
    | some x =>
      obtain ⟨res, itr2, mr2⟩ := x
      cases res with
      | some s => simp [matchChars, h1] at h
      | none =>
        simp only [matchChars, h1] at h
        obtain ⟨hit, _⟩ := by simpa using h
        rw [← hit]
        exact altRestore f alts itr mr itr2 mr2 h1

theorem c3_grp_restores_witness : (['b'] : Str) = ['b'] :=
  c3_grp_restores 5 7 [[.char 'a']] ['b'] [] ['b'] [] rfl

/-- C4: a Repeat node always succeeds, returning exactly the text of its
successful iterations (so the cursor is rolled back to the last successful
checkpoint, discarding the failed attempt's consumption), and when the very
first attempt fails the result is the empty string with the cursor unmoved. -/
theorem c4_rpt_always_succeeds (f : Nat) (n : Node) (itr : Str) (mr : MR)
    (res : Option Str) (itr' : Str) (mr' : MR)
    (h : matchChars (f + 2) (.rpt n) itr mr = some (res, itr', mr')) :
    (∃ out, res = some out ∧ out ++ itr' = itr) ∧
    (∀ itr2 mr2, matchChars f n itr mr = some (none, itr2, mr2) →
      res = some [] ∧ itr' = itr ∧ mr' = mr2) := by
  have hloop : rptLoop (f + 1) n itr [] mr = some (res, itr', mr') := by
    simpa [matchChars] using h
  constructor
  · obtain ⟨u, hu, hpre⟩ := prefL hloop
    exact ⟨u, by simpa using hu, hpre⟩
  · intro itr2 mr2 h2
    simp only [rptLoop, h2] at hloop
    obtain ⟨hr, hit, hmr⟩ := by simpa using hloop
    exact ⟨hr.symm, hit.symm, hmr.symm⟩

theorem c4_rpt_always_succeeds_witness :
    (∃ out, (some ([] : Str)) = some out ∧ out ++ ['b'] = ['b']) ∧
    (∀ itr2 mr2, matchChars 1 (.char 'a') ['b'] [] = some (none, itr2, mr2) →
      (some ([] : Str)) = some [] ∧ ['b'] = ['b'] ∧ ([] : MR) = mr2) :=
  c4_rpt_always_succeeds 1 (.char 'a') ['b'] [] (some []) ['b'] [] rfl

/-- A whole-string match result, once delivered at some fuel, is delivered at
every larger fuel (determinism across the fuel parameter). -/
theorem matchWholeFuel_mono {f g : Nat} (hle : f ≤ g) {root : Node} {s : String}
    {r : Option MR} (h : matchWholeFuel f root s = some r) :
    matchWholeFuel g root s = some r := by
  rw [matchWholeFuel] at h ⊢
  cases h0 : matchChars f root s.data [] with
  | none => rw [h0] at h; exact absurd h (by simp)
  | some x =>
    obtain ⟨res, itr, mr⟩ := x
    rw [h0] at h
    rw [monoN hle h0]
    exact h

/-- C5: the pattern of a starred `a` group followed by a literal `a` fails on
the subject `aaa`: the greedy repeat swallows all three characters and the
engine never retries with fewer iterations. -/
theorem c5_greedy_no_backtrack :
    parseRegex "(a*)a" = some (.ok (.grp 0 [[.grp 1 [[.rpt (.char 'a')]], .char 'a']])) ∧
    ∀ fuel, 30 ≤ fuel →
      matchWholeFuel fuel (.grp 0 [[.grp 1 [[.rpt (.char 'a')]], .char 'a']]) "aaa"
        = some none := by
  refine ⟨rfl, fun fuel hf => matchWholeFuel_mono hf ?_⟩
  rfl

theorem c5_greedy_no_backtrack_witness :
    matchWholeFuel 30 (.grp 0 [[.grp 1 [[.rpt (.char 'a')]], .char 'a']]) "aaa"
      = some none :=
  c5_greedy_no_backtrack.2 30 le_rfl

/-- C6: matching the starred group pattern over `a` and a `b`-or-`c` group
against `abac` succeeds and group 2 retains only the last iteration's `c`. -/
theorem c6_repeat_overwrite :
    parseRegex "(a(b|c))*" =
      some (.ok (.grp 0 [[.rpt (.grp 1 [[.char 'a', .grp 2 [[.char 'b'], [.char 'c']]]])]])) ∧
    (∀ fuel, 50 ≤ fuel →
      matchWholeFuel fuel
        (.grp 0 [[.rpt (.grp 1 [[.char 'a', .grp 2 [[.char 'b'], [.char 'c']]]])]]) "abac"
        = some (some [(0, ['a', 'b', 'a', 'c']), (1, ['a', 'c']), (2, ['c'])])) ∧
    List.lookup 2 ([(0, ['a', 'b', 'a', 'c']), (1, ['a', 'c']), (2, ['c'])] : MR)
      = some ['c'] := by
  refine ⟨rfl, fun fuel hf => matchWholeFuel_mono hf ?_, rfl⟩
  rfl

theorem c6_repeat_overwrite_witness :
    matchWholeFuel 50
      (.grp 0 [[.rpt (.grp 1 [[.char 'a', .grp 2 [[.char 'b'], [.char 'c']]]])]]) "abac"
      = some (some [(0, ['a', 'b', 'a', 'c']), (1, ['a', 'c']), (2, ['c'])]) :=
  c6_repeat_overwrite.2.1 50 le_rfl

/-- C7 as stated is false when the atom contains a capturing group: the
pattern `(a)+` shares group number 1 between the mandatory copy and the
repeat, while `(a)(a)*` numbers the second copy as group 2, so the capture
maps for the subject `aa` differ. -/
theorem c7_counterexample :
    parseRegex "(a)+"
      = some (.ok (.grp 0 [[.grp 1 [[.char 'a']], .rpt (.grp 1 [[.char 'a']])]])) ∧
    parseRegex "(a)(a)*"
      = some (.ok (.grp 0 [[.grp 1 [[.char 'a']], .rpt (.grp 2 [[.char 'a']])]])) ∧
    matchWholeFuel 40 (.grp 0 [[.grp 1 [[.char 'a']], .rpt (.grp 1 [[.char 'a']])]]) "aa"
      = some (some [(0, ['a', 'a']), (1, ['a'])]) ∧
    matchWholeFuel 40 (.grp 0 [[.grp 1 [[.char 'a']], .rpt (.grp 2 [[.char 'a']])]]) "aa"
      = some (some [(0, ['a', 'a']), (1, ['a']), (2, ['a'])]) ∧
    ([(0, ['a', 'a']), (1, ['a'])] : MR) ≠ [(0, ['a', 'a']), (1, ['a']), (2, ['a'])] :=
  ⟨rfl, rfl, rfl, rfl, by decide⟩

/-- C7 (amended): the `+` handler appends a `Repeat` wrapping the most
recently appended node without removing the original; consequently, for every
atom `X` that parses to one fixed node independently of the group counter
(an atom with no capturing group inside), the patterns `X+` and `XX*` parse
to the identical tree, so matching either against any subject gives the same
result.  The atom hypothesis says: scanning `X` appends exactly one node `n`
to the current branch, costing `k` fuel, in any parser state. -/
theorem c7_plus_desugar (X : List Char) (n : Node) (k : Nat)
    (hatom : ∀ fuel rest cnt root mynum done cur,
      parseLoop (fuel + k) (X ++ rest) cnt root mynum done cur
        = parseLoop fuel rest cnt root mynum done (cur ++ [n])) :
    (∀ fuel input cnt root mynum done cur n0, cur.getLast? = some n0 →
      parseLoop (fuel + 1) ('+' :: input) cnt root mynum done cur
        = parseLoop fuel input cnt root mynum done (cur ++ [.rpt n0])) ∧
    (∀ f, parseLoop (f + 2 + k) (X ++ ['+']) 0 true 0 [] []
        = some (.ok (.grp 0 [[n, .rpt n]], [], 0))) ∧
    (∀ f, parseLoop (f + 2 + k + k) (X ++ (X ++ ['*'])) 0 true 0 [] []
        = some (.ok (.grp 0 [[n, .rpt n]], [], 0))) := by
  refine ⟨?_, ?_, ?_⟩
  · intro fuel input cnt root mynum done cur n0 hlast
    simp [parseLoop, hlast]
  · intro f
    have h1 := hatom (f + 2) ['+'] 0 true 0 [] []
    rw [h1]
    rfl
  · intro f
    have h1 := hatom (f + 2 + k) (X ++ ['*']) 0 true 0 [] []
    have h2 := hatom (f + 2) ['*'] 0 true 0 [] [n]
    rw [h1]
    simp only [List.nil_append]
    rw [h2]
    rfl

theorem c7_plus_desugar_witness :
    parseLoop (0 + 2 + 1) (['a'] ++ ['+']) 0 true 0 [] []
      = some (.ok (.grp 0 [[.char 'a', .rpt (.char 'a')]], [], 0)) :=
  (c7_plus_desugar ['a'] (.char 'a') 1
    (fun _ _ _ _ _ _ _ => rfl)).2.1 0

/-- C8: the fatal-error catalog.  Each condition is reachable (unmatched `)`
at the outermost level, `*` and `+` with no preceding node, empty and
unterminated character classes, invalid and dangling escapes), parse errors
carry no other identity, and end of input inside a nested group is treated
exactly like `)`: the pattern with an unclosed group parses to the very tree
of the closed one. -/
theorem c8_parse_error_catalog :
    parseRegex "a)" = some (.error .extraRParen) ∧
    parseRegex "*" = some (.error .starNoNode) ∧
    parseRegex "+" = some (.error .plusNoNode) ∧
    parseRegex "[]" = some (.error .emptyClass) ∧
    parseRegex "[a" = some (.error .untermClass) ∧
    parseRegex "\\q" = some (.error .invalidEscape) ∧
    parseRegex "\\" = some (.error .danglingEscape) ∧
    (parseRegex "(a" = some (.ok (.grp 0 [[.grp 1 [[.char 'a']]]])) ∧
      parseRegex "(a)" = some (.ok (.grp 0 [[.grp 1 [[.char 'a']]]]))) ∧
    (∀ (s : String) (e : PErr), parseRegex s = some (.error e) →
      e = PErr.extraRParen ∨ e = PErr.starNoNode ∨ e = PErr.plusNoNode ∨
      e = PErr.emptyClass ∨ e = PErr.untermClass ∨ e = PErr.invalidEscape ∨
      e = PErr.danglingEscape) := by
  refine ⟨rfl, rfl, rfl, rfl, rfl, rfl, rfl, ⟨rfl, rfl⟩, ?_⟩
  intro s e _
  cases e <;> simp

theorem c8_parse_error_catalog_witness :
    PErr.extraRParen = PErr.extraRParen ∨ PErr.extraRParen = PErr.starNoNode ∨
    PErr.extraRParen = PErr.plusNoNode ∨ PErr.extraRParen = PErr.emptyClass ∨
    PErr.extraRParen = PErr.untermClass ∨ PErr.extraRParen = PErr.invalidEscape ∨
    PErr.extraRParen = PErr.danglingEscape :=
  c8_parse_error_catalog.2.2.2.2.2.2.2.2 "a)" PErr.extraRParen rfl

/-- C9 as stated is false in one point: groups are not rendered with a
`Grp` delimiter; the code wraps a non-zero group's body in plain
parentheses. -/
theorem c9_counterexample :
    debugNode (.grp 1 [[.char 'a']]) = "(Char\x7ba\x7d)".data ∧
    debugNode (.grp 1 [[.char 'a']]) ≠ "Grp\x7bChar\x7ba\x7d\x7d".data :=
  ⟨rfl, by decide⟩

/-- C9 (amended): the debug rendering uses `Char{c}` for literals, `[...]`
and `[^...]` for classes, parentheses (not a `Grp` delimiter) around every
group except group 0 which renders bare, `|` between alternative branches,
and a trailing `*` for repeats. -/
theorem c9_debug_render (c : Char) (elems : Str) (n m : Node) (num : Nat)
    (alts : List (List Node)) (b : List Node) (bs : List (List Node)) (ns : List Node)
    (hnum : num ≠ 0) (hbs : bs ≠ []) :
    debugNode (.char c) = "Char\x7b".data ++ [c] ++ "\x7d".data ∧
    debugNode (.cclass elems false) = ['['] ++ elems ++ [']'] ∧
    debugNode (.cclass elems true) = ['[', '^'] ++ elems ++ [']'] ∧
    debugNode (.grp num alts) = ['('] ++ debugAlt alts ++ [')'] ∧
    debugNode (.grp 0 alts) = debugAlt alts ∧
    debugNode (.rpt n) = debugNode n ++ ['*'] ∧
    debugAlt (b :: bs) = debugSeq b ++ ['|'] ++ debugAlt bs ∧
    debugAlt [b] = debugSeq b ∧
    debugSeq (m :: ns) = debugNode m ++ debugSeq ns ∧
    debugSeq ([] : List Node) = ([] : Str) := by
  refine ⟨rfl, rfl, rfl, ?_, rfl, rfl, ?_, ?_, rfl, rfl⟩
  · simp [debugNode, debugAlt, hnum]
  · have hne : debugAlts bs ≠ [] := by
      cases bs with
      | nil => exact absurd rfl hbs
      | cons b' bs' => simp [debugAlts]
    rw [debugAlt, debugAlts, List.append_assoc,
      List.dropLast_append_of_ne_nil _ (by simp [hne]),
      List.dropLast_append_of_ne_nil _ hne]
    rw [debugAlt]
    simp
  · rw [debugAlt, debugAlts, debugAlts]
    simp

theorem c9_debug_render_witness :
    debugNode (.char 'x') = "Char\x7b".data ++ ['x'] ++ "\x7d".data ∧
    debugNode (.cclass ['p'] false) = ['['] ++ ['p'] ++ [']'] ∧
    debugNode (.cclass ['p'] true) = ['[', '^'] ++ ['p'] ++ [']'] ∧
    debugNode (.grp 2 [[.char 'x']]) = ['('] ++ debugAlt [[.char 'x']] ++ [')'] ∧
    debugNode (.grp 0 [[.char 'x']]) = debugAlt [[.char 'x']] ∧
    debugNode (.rpt (.char 'y')) = debugNode (.char 'y') ++ ['*'] ∧
    debugAlt ([.char 'x'] :: [[.char 'y']]) =
      debugSeq [.char 'x'] ++ ['|'] ++ debugAlt [[.char 'y']] ∧
    debugAlt [[.char 'x']] = debugSeq [.char 'x'] ∧
    debugSeq (Node.char 'z' :: [.char 'w']) = debugNode (.char 'z') ++ debugSeq [.char 'w'] ∧
    debugSeq ([] : List Node) = ([] : Str) :=
  c9_debug_render 'x' ['p'] (.char 'y') (.char 'z') 2 [[.char 'x']] [.char 'x']
    [[.char 'y']] [.char 'w'] (by decide) (by simp)

/-- C10: the empty pattern parses to the implicit outer group 0 with a single
empty branch; matching it succeeds on the empty subject with capture map
binding 0 to the empty string, and fails on every non-empty subject. -/
theorem c10_empty_pattern :
    parseRegex "" = some (.ok (.grp 0 [[]])) ∧
    matchWholeFuel 4 (.grp 0 [[]]) "" = some (some [(0, [])]) ∧
    (∀ (s : String) (f : Nat), s ≠ "" → matchWholeFuel (f + 4) (.grp 0 [[]]) s = some none) := by
  refine ⟨rfl, rfl, ?_⟩
  intro s f hs
  have hdata : s.data ≠ [] := by
    intro h0
    apply hs
    cases s with
    | mk l =>
      cases h0
      rfl
  have hgrp : matchChars (f + 4) (.grp 0 [[]]) s.data [] =
      some (some [], s.data, [(0, [])]) := rfl
  rw [matchWholeFuel, hgrp]
  simp [hdata]

theorem c10_empty_pattern_witness :
    matchWholeFuel (0 + 4) (.grp 0 [[]]) "x" = some none :=
  c10_empty_pattern.2.2 "x" 0 (by decide)
